import Mathlib

/-!
Shallow embedding of `language-model/ngrams.py` and
`kaldi-style/kaz_syllable_split.py` from the `asr` repository, with theorems
checking the specification's claims about them.

Tokens are modelled as `List Char`; corpus text arrives as a `String` and is
converted through `String.data`.  Probability arithmetic is modelled over `ℚ`
(the values before the logarithm is taken); the natural-log layer uses
`Real.log`.  The modules `corpus_stats.py` and `backoff.py` are imported by
`ngrams.py` but are not among the sources; the definitions standing in for
them are marked `Modelled from the spec`.
-/

/-- Python `s.split(sep)` for a one-character separator, as used by
`lines.split('\n')` and `line.split(' ')` in `ngrams.py`: every occurrence of
the separator cuts the string, empty pieces are kept, and the empty string
splits into one empty piece. -/
def splitOnChar (sep : Char) : List Char → List (List Char)
  | [] => [[]]
  | c :: rest =>
    if c = sep then [] :: splitOnChar sep rest
    else
      match splitOnChar sep rest with
      | [] => [[c]]
      | p :: ps => (c :: p) :: ps

/-- `get_ngrams_from_line` (ngrams.py, lines 76–90): for `n = 1`, one
singleton tuple per token, in order; otherwise the slice `tokens[i : i+n]`
for every start index `i` in `range(len(tokens) - (n-1))`.  The bound is
written `length + 1 - n`, which agrees with Python's `len(tokens) - (n-1)`
for every `n`. -/
def get_ngrams_from_line (tokens : List (List Char)) (n : Nat) :
    List (List (List Char)) :=
  if n = 1 then tokens.map (fun t => [t])
  else (List.range (tokens.length + 1 - n)).map (fun i => (tokens.drop i).take n)

/-- `get_ngram_tuples` (ngrams.py, lines 56–73): walk the lines in order; a
line is tokenized by `line.split(' ')` and contributes its unigrams, bigrams
and trigrams exactly when its token count exceeds `lenSentenceCutoff`. -/
def get_ngram_tuples (cutoff : Nat) :
    List (List Char) →
    List (List (List Char)) × List (List (List Char)) × List (List (List Char))
  | [] => ([], [], [])
  | line :: rest =>
    let toks := splitOnChar ' ' line
    let acc := get_ngram_tuples cutoff rest
    if cutoff < toks.length then
      (get_ngrams_from_line toks 1 ++ acc.1,
       get_ngrams_from_line toks 2 ++ acc.2.1,
       get_ngrams_from_line toks 3 ++ acc.2.2)
    else acc

/-- The n-gram lists built by `main` (ngrams.py, lines 156–164): the corpus
text (the newline-joined file contents) is split on line boundaries and fed
to `get_ngram_tuples` with `lenSentenceCutoff = 4`. -/
def mainGrams (text : List Char) := get_ngram_tuples 4 (splitOnChar '\n' text)

/-- Unigram list of the pipeline. -/
def mainUnigrams (text : List Char) := (mainGrams text).1

/-- Bigram list of the pipeline. -/
def mainBigrams (text : List Char) := (mainGrams text).2.1

/-- Trigram list of the pipeline. -/
def mainTrigrams (text : List Char) := (mainGrams text).2.2

/-- Modelled from the spec: `get_count_dict` is imported from
`corpus_stats.py`, a file of this repository that is not among the sources.
§4.3 specifies a per-key counter incremented on every occurrence and starting
at 0 for unseen keys, so the table maps each n-gram `g` to `l.count g`. -/
def get_count_dict [BEq α] (l : List α) (g : α) : Nat := l.count g

/-- Key list of a Python dict built by repeated insertion: the distinct
elements in first-occurrence order. -/
def firstKeys [DecidableEq α] : List α → List α
  | [] => []
  | a :: l => a :: (firstKeys l).filter (fun b => b ≠ a)

/-- Sum of a count table's values, as in `N = sum(uniCountDict.values())`
(ngrams.py, line 172). -/
def sumValues [DecidableEq α] [BEq α] (l : List α) : Nat :=
  ((firstKeys l).map (fun g => l.count g)).sum

theorem mem_of_mem_firstKeys [DecidableEq α] {b : α} :
    ∀ {l : List α}, b ∈ firstKeys l → b ∈ l := by
  intro l
  induction l with
  | nil => intro hb; simp [firstKeys] at hb
  | cons a l ih =>
    intro hb
    rw [firstKeys] at hb
    rcases List.mem_cons.mp hb with h | hb
    · exact h ▸ List.mem_cons_self a l
    · exact List.mem_cons_of_mem a (ih (List.mem_of_mem_filter hb))

/-- Each element occurs in the key list exactly once if it occurs in the
source list at all. -/
theorem count_firstKeys [DecidableEq α] [BEq α] [LawfulBEq α] (a : α) :
    ∀ l : List α, (firstKeys l).count a = if a ∈ l then 1 else 0 := by
  intro l
  induction l with
  | nil => simp [firstKeys]
  | cons b l ih =>
    rw [firstKeys]
    by_cases hba : b = a
    · subst hba
      rw [List.count_cons_self]
      have hnot : b ∉ (firstKeys l).filter (fun c => c ≠ b) := by
        intro hmem
        have := List.of_mem_filter hmem
        simp at this
      rw [List.count_eq_zero.mpr hnot]
      simp
    · have hab : a ≠ b := fun h => hba h.symm
      rw [List.count_cons_of_ne hab]
      rw [List.count_filter (by simpa using hab)]
      rw [ih]
      simp [List.mem_cons, hab]

/-- Splitting a sum of mapped values at one key. -/
theorem sum_map_filter_ne [DecidableEq α] [BEq α] [LawfulBEq α]
    (f : α → Nat) (a : α) :
    ∀ ks : List α,
      (ks.map f).sum = ((ks.filter (fun b => b ≠ a)).map f).sum
        + ks.count a * f a := by
  intro ks
  induction ks with
  | nil => simp
  | cons b l ih =>
    by_cases hba : b = a
    · subst hba
      rw [List.count_cons_self]
      have hfe : List.filter (fun c => decide (c ≠ b)) (b :: l)
          = List.filter (fun c => decide (c ≠ b)) l := by
        rw [List.filter_cons]
        simp
      rw [hfe, List.map_cons, List.sum_cons, ih, Nat.succ_mul]
      omega
    · have hab : a ≠ b := fun h => hba h.symm
      rw [List.count_cons_of_ne hab]
      have hfe : List.filter (fun c => decide (c ≠ a)) (b :: l)
          = b :: List.filter (fun c => decide (c ≠ a)) l := by
        rw [List.filter_cons]
        simp [hba]
      rw [hfe, List.map_cons, List.sum_cons, List.map_cons, List.sum_cons, ih]
      omega

/-- The values of a count table sum to the length of the list it was built
from; for the unigram table this is the number of retained tokens `N`. -/
theorem sumValues_eq_length [DecidableEq α] [BEq α] [LawfulBEq α] :
    ∀ l : List α, sumValues l = l.length := by
  intro l
  induction l with
  | nil => simp [sumValues, firstKeys]
  | cons a l ih =>
    rw [sumValues, firstKeys]
    simp only [List.map_cons, List.sum_cons, List.count_cons_self]
    have hmap :
        ((firstKeys l).filter (fun b => b ≠ a)).map (fun g => (a :: l).count g)
          = ((firstKeys l).filter (fun b => b ≠ a)).map (fun g => l.count g) := by
      apply List.map_congr_left
      intro b hb
      have hba : b ≠ a := by simpa using List.of_mem_filter hb
      exact List.count_cons_of_ne hba _
    rw [hmap]
    have hsplit := sum_map_filter_ne (fun g => l.count g) a (firstKeys l)
    have hcnt := count_firstKeys a l
    have ihs : ((firstKeys l).map (fun g => l.count g)).sum = l.length := ih
    by_cases hmem : a ∈ l
    · rw [hcnt, if_pos hmem] at hsplit
      simp only [List.length_cons]
      omega
    · rw [hcnt, if_neg hmem] at hsplit
      have hzero : l.count a = 0 := List.count_eq_zero.mpr hmem
      simp only [List.length_cons]
      omega

/-- Python whitespace characters, as recognized by a no-argument
`str.split()`. -/
def pySpace (c : Char) : Bool :=
  c = ' ' || c = '\t' || c = '\n' || c = '\r' || c = '\x0b' || c = '\x0c'

/-- Python `line.split()` with no argument: split on every whitespace
character and drop the empty pieces, so consecutive whitespace acts as one
separator.  Used by the syllable splitter (`kaz_syllable_split.py`, line 31)
and, for comparison, by the specification's description of the sentence
filter. -/
def wsWords (l : List Char) : List (List Char) :=
  (l.splitOnP pySpace).filter (fun w => w ≠ [])

/-- C5: for every token list and every `n ≥ 2` the extractor emits exactly
the slices `tokens[i:i+n]` for start indices `i = 0 .. len − n`, in
left-to-right order: the output has length `len + 1 − n` (hence `L − 1`
bigrams from a sentence of length `L`, when `n = 2`), the `i`-th emitted
n-gram is `tokens[i:i+n]`, and a sentence with fewer than `n` tokens yields
no n-grams.  No deduplication occurs, since every index emits its slice. -/
theorem ngrams_slices (tokens : List (List Char)) (n : Nat) (hn : 2 ≤ n) :
    (get_ngrams_from_line tokens n).length = tokens.length + 1 - n
    ∧ (∀ i (h : i < (get_ngrams_from_line tokens n).length),
        (get_ngrams_from_line tokens n).get ⟨i, h⟩ = (tokens.drop i).take n)
    ∧ (tokens.length < n → get_ngrams_from_line tokens n = []) := by
  have hne : n ≠ 1 := by omega
  unfold get_ngrams_from_line
  rw [if_neg hne]
  refine ⟨by simp, ?_, ?_⟩
  · intro i h
    simp [List.get_eq_getElem]
  · intro hlen
    have hz : tokens.length + 1 - n = 0 := by omega
    simp [hz]

theorem ngrams_slices_witness :
    (get_ngrams_from_line [['a'], ['b'], ['c']] 2).length
        = ([['a'], ['b'], ['c']] : List (List Char)).length + 1 - 2
    ∧ (∀ i (h : i < (get_ngrams_from_line [['a'], ['b'], ['c']] 2).length),
        (get_ngrams_from_line [['a'], ['b'], ['c']] 2).get ⟨i, h⟩
          = (([['a'], ['b'], ['c']] : List (List Char)).drop i).take 2)
    ∧ (([['a'], ['b'], ['c']] : List (List Char)).length < 2 →
        get_ngrams_from_line [['a'], ['b'], ['c']] 2 = []) :=
  ngrams_slices [['a'], ['b'], ['c']] 2 (by decide)

/-- The accumulation loop of `get_ngram_tuples`, written per line: each
component is the concatenation, over the lines in order, of that line's
n-grams when the line's token count exceeds the cutoff, and nothing
otherwise. -/
theorem get_ngram_tuples_eq_flatMap (cutoff : Nat) (ls : List (List Char)) :
    get_ngram_tuples cutoff ls
      = (ls.flatMap (fun line =>
            if cutoff < (splitOnChar ' ' line).length then
              get_ngrams_from_line (splitOnChar ' ' line) 1 else []),
         ls.flatMap (fun line =>
            if cutoff < (splitOnChar ' ' line).length then
              get_ngrams_from_line (splitOnChar ' ' line) 2 else []),
         ls.flatMap (fun line =>
            if cutoff < (splitOnChar ' ' line).length then
              get_ngrams_from_line (splitOnChar ' ' line) 3 else [])) := by
  induction ls with
  | nil => rfl
  | cons line rest ih =>
    simp only [get_ngram_tuples, ih, List.flatMap_cons]
    by_cases h : cutoff < (splitOnChar ' ' line).length
    · simp [h]
    · simp [h]

/-- C6 (amended): the sentence filter splits the corpus text on newline
characters and tokenizes each line by splitting on the single space
character, so consecutive spaces yield empty tokens; a line contributes its
n-grams, for all three orders at once, exactly when this token count
strictly exceeds the cutoff, whose value at the call site in `main` is 4. -/
theorem sentence_filter_behavior (text : List Char) :
    mainUnigrams text
      = (splitOnChar '\n' text).flatMap (fun line =>
          if 4 < (splitOnChar ' ' line).length then
            get_ngrams_from_line (splitOnChar ' ' line) 1 else [])
    ∧ mainBigrams text
      = (splitOnChar '\n' text).flatMap (fun line =>
          if 4 < (splitOnChar ' ' line).length then
            get_ngrams_from_line (splitOnChar ' ' line) 2 else [])
    ∧ mainTrigrams text
      = (splitOnChar '\n' text).flatMap (fun line =>
          if 4 < (splitOnChar ' ' line).length then
            get_ngrams_from_line (splitOnChar ' ' line) 3 else []) := by
  have h := get_ngram_tuples_eq_flatMap 4 (splitOnChar '\n' text)
  refine ⟨?_, ?_, ?_⟩
  · exact congrArg Prod.fst h
  · exact congrArg (fun p => p.2.1) h
  · exact congrArg (fun p => p.2.2) h

/-- Follows the spec's words for C6 (a comparison definition, not drawn from
the code): whitespace tokenization of each line, with a line contributing
its unigrams exactly when its whitespace token count exceeds the default
cutoff 4. -/
def specFilterUnigrams (text : List Char) : List (List (List Char)) :=
  (splitOnChar '\n' text).flatMap (fun line =>
    if 4 < (wsWords line).length then (wsWords line).map (fun t => [t]) else [])

/-- C6 counterexample: on the one-line corpus `a  b c d` (with a double
space after `a`), the code tokenizes by single spaces into five tokens, one
of them empty, so the line passes the cutoff and contributes unigrams; under
the claimed whitespace tokenization it has only four tokens and would
contribute nothing. -/
theorem sentence_filter_counterexample :
    mainUnigrams "a  b c d".data ≠ specFilterUnigrams "a  b c d".data := by
  decide

theorem uni_cons (x : List Char) (l : List (List Char)) :
    get_ngrams_from_line (x :: l) 1 = [x] :: get_ngrams_from_line l 1 := by
  simp [get_ngrams_from_line]

theorem ngrams2_nil : get_ngrams_from_line [] 2 = [] := by
  simp [get_ngrams_from_line]

theorem ngrams2_single (x : List Char) : get_ngrams_from_line [x] 2 = [] := by
  simp [get_ngrams_from_line]

theorem ngrams2_cons (x y : List Char) (rest : List (List Char)) :
    get_ngrams_from_line (x :: y :: rest) 2
      = [x, y] :: get_ngrams_from_line (y :: rest) 2 := by
  unfold get_ngrams_from_line
  rw [if_neg (by omega), if_neg (by omega)]
  simp only [List.length_cons]
  have h1 : rest.length + 1 + 1 + 1 - 2 = rest.length + 1 := by omega
  have h2 : rest.length + 1 + 1 - 2 = rest.length := by omega
  rw [h1, h2, List.range_succ_eq_map, List.map_cons, List.map_map]
  simp [Function.comp_def]

theorem ngrams3_short (toks : List (List Char)) (h : toks.length < 3) :
    get_ngrams_from_line toks 3 = [] := by
  unfold get_ngrams_from_line
  rw [if_neg (by omega)]
  have hz : toks.length + 1 - 3 = 0 := by omega
  simp [hz]

theorem ngrams3_cons (x y z : List Char) (rest : List (List Char)) :
    get_ngrams_from_line (x :: y :: z :: rest) 3
      = [x, y, z] :: get_ngrams_from_line (y :: z :: rest) 3 := by
  unfold get_ngrams_from_line
  rw [if_neg (by omega), if_neg (by omega)]
  simp only [List.length_cons]
  have h1 : rest.length + 1 + 1 + 1 + 1 - 3 = rest.length + 1 := by omega
  have h2 : rest.length + 1 + 1 + 1 - 3 = rest.length := by omega
  rw [h1, h2, List.range_succ_eq_map, List.map_cons, List.map_map]
  simp [Function.comp_def]

/-- Every occurrence of a bigram `(a, b)` in a line's bigram list sits at a
position whose unigram is `(a)`, so the bigram count never exceeds the
unigram count of the left token. -/
theorem count_bi_le_uni (a b : List Char) (toks : List (List Char)) :
    (get_ngrams_from_line toks 2).count [a, b]
      ≤ (get_ngrams_from_line toks 1).count [a] := by
  induction toks with
  | nil => simp [ngrams2_nil]
  | cons x l ih =>
    cases l with
    | nil => simp [ngrams2_single]
    | cons y rest =>
      rw [ngrams2_cons, uni_cons, List.count_cons, List.count_cons]
      by_cases hxy : ([x, y] : List (List Char)) = [a, b]
      · have hx : ([x] : List (List Char)) = [a] := by
          have hxa : x = a := by injection hxy
          rw [hxa]
        rw [hxy, hx]
        simp only [beq_self_eq_true, if_true]
        omega
      · have h0 : (([x, y] : List (List Char)) == [a, b]) = false := by
          simpa using hxy
        rw [h0]
        simp only [Bool.false_eq_true, if_false]
        split <;> omega

/-- Every occurrence of a trigram `(a, b, c)` in a line's trigram list sits
at a position whose bigram is `(a, b)`. -/
theorem count_tri_le_bi (a b c : List Char) (toks : List (List Char)) :
    (get_ngrams_from_line toks 3).count [a, b, c]
      ≤ (get_ngrams_from_line toks 2).count [a, b] := by
  induction toks with
  | nil => simp [ngrams3_short]
  | cons x l ih =>
    cases l with
    | nil => simp [ngrams3_short]
    | cons y rest =>
      cases rest with
      | nil => simp [ngrams3_short]
      | cons z rest2 =>
        rw [ngrams3_cons, ngrams2_cons, List.count_cons, List.count_cons]
        by_cases hxyz : ([x, y, z] : List (List Char)) = [a, b, c]
        · have hxy : ([x, y] : List (List Char)) = [a, b] := by
            have hxa : x = a := by injection hxyz
            have hyb : y = b := by
              have htl := List.tail_eq_of_cons_eq hxyz
              injection htl
            rw [hxa, hyb]
          rw [hxyz, hxy]
          simp only [beq_self_eq_true, if_true]
          omega
        · have h0 : (([x, y, z] : List (List Char)) == [a, b, c]) = false := by
            simpa using hxyz
          rw [h0]
          simp only [Bool.false_eq_true, if_false]
          split <;> omega

theorem count_flatMap_le {β γ : Type} [BEq γ] {f g : β → List γ}
    {v w : γ} (h : ∀ x, (f x).count v ≤ (g x).count w) (ls : List β) :
    (ls.flatMap f).count v ≤ (ls.flatMap g).count w := by
  induction ls with
  | nil => simp
  | cons x rest ih =>
    simp only [List.flatMap_cons, List.count_append]
    exact Nat.add_le_add (h x) ih

/-- Corpus-level form of `count_bi_le_uni`: across all retained lines. -/
theorem count_bi_le_uni_corpus (a b : List Char) (text : List Char) :
    (mainBigrams text).count [a, b] ≤ (mainUnigrams text).count [a] := by
  obtain ⟨h1, h2, _⟩ := sentence_filter_behavior text
  rw [h1, h2]
  apply count_flatMap_le
  intro line
  by_cases hc : 4 < (splitOnChar ' ' line).length
  · simp only [if_pos hc]
    exact count_bi_le_uni a b _
  · simp [if_neg hc]

/-- Corpus-level form of `count_tri_le_bi`: across all retained lines. -/
theorem count_tri_le_bi_corpus (a b c : List Char) (text : List Char) :
    (mainTrigrams text).count [a, b, c] ≤ (mainBigrams text).count [a, b] := by
  obtain ⟨_, h2, h3⟩ := sentence_filter_behavior text
  rw [h2, h3]
  apply count_flatMap_le
  intro line
  by_cases hc : 4 < (splitOnChar ' ' line).length
  · simp only [if_pos hc]
    exact count_tri_le_bi a b c _
  · simp [if_neg hc]

/-- Modelled from the spec: `get_MLE_dict` is imported from
`corpus_stats.py`, a file of this repository that is not among the sources.
§4.4 specifies, for an n-gram `(c_1,...,c_{n-1}, w)`, the maximum-likelihood
estimate `count(c_1..c_{n-1}, w) / count(c_1..c_{n-1})` with the count table
of order `n−1` as the denominator source; this is the rational value before
the natural log is applied.  The conditioning context is the n-gram without
its final token, `g.take (g.length - 1)`. -/
def get_MLE_ratio (loCount hiCount : List (List Char) → Nat)
    (g : List (List Char)) : ℚ :=
  (hiCount g : ℚ) / (loCount (g.take (g.length - 1)) : ℚ)

/-- Unigram count table of the pipeline. -/
def uniCount (text : List Char) : List (List Char) → Nat :=
  get_count_dict (mainUnigrams text)

/-- Bigram count table of the pipeline. -/
def biCount (text : List Char) : List (List Char) → Nat :=
  get_count_dict (mainBigrams text)

/-- Trigram count table of the pipeline. -/
def triCount (text : List Char) : List (List Char) → Nat :=
  get_count_dict (mainTrigrams text)

/-- Bigram MLE values, as built by `get_MLE_dict(uniCountDict, biCountDict, 2)`
(ngrams.py, line 179). -/
def biMLE (text : List Char) : List (List Char) → ℚ :=
  get_MLE_ratio (uniCount text) (biCount text)

/-- Trigram MLE values, as built by `get_MLE_dict(biCountDict, triCountDict, 3)`
(ngrams.py, line 180). -/
def triMLE (text : List Char) : List (List Char) → ℚ :=
  get_MLE_ratio (biCount text) (triCount text)

/-- C1: for every observed bigram `(a, b)` the MLE equals
`count(a,b) / count(a)` with the order-1 table as denominator source, and
the denominator is nonzero; likewise for every observed trigram with the
order-2 table. -/
theorem mle_ratio_observed :
    (∀ (text : List Char) (a b : List Char),
        0 < biCount text [a, b] →
        biMLE text [a, b] = (biCount text [a, b] : ℚ) / (uniCount text [a] : ℚ)
          ∧ 0 < uniCount text [a])
    ∧ (∀ (text : List Char) (a b c : List Char),
        0 < triCount text [a, b, c] →
        triMLE text [a, b, c]
            = (triCount text [a, b, c] : ℚ) / (biCount text [a, b] : ℚ)
          ∧ 0 < biCount text [a, b]) := by
  constructor
  · intro text a b hpos
    refine ⟨rfl, ?_⟩
    have h := count_bi_le_uni_corpus a b text
    have e1 : biCount text [a, b] = (mainBigrams text).count [a, b] := rfl
    have e2 : uniCount text [a] = (mainUnigrams text).count [a] := rfl
    rw [e1] at hpos
    rw [e2]
    omega
  · intro text a b c hpos
    refine ⟨rfl, ?_⟩
    have h := count_tri_le_bi_corpus a b c text
    have e1 : triCount text [a, b, c] = (mainTrigrams text).count [a, b, c] := rfl
    have e2 : biCount text [a, b] = (mainBigrams text).count [a, b] := rfl
    rw [e1] at hpos
    rw [e2]
    omega

theorem mle_ratio_observed_witness :
    (biMLE "a b c d e".data [['a'], ['b']]
        = (biCount "a b c d e".data [['a'], ['b']] : ℚ)
            / (uniCount "a b c d e".data [['a']] : ℚ)
      ∧ 0 < uniCount "a b c d e".data [['a']])
    ∧ (triMLE "a b c d e".data [['a'], ['b'], ['c']]
        = (triCount "a b c d e".data [['a'], ['b'], ['c']] : ℚ)
            / (biCount "a b c d e".data [['a'], ['b']] : ℚ)
      ∧ 0 < biCount "a b c d e".data [['a'], ['b']]) :=
  ⟨mle_ratio_observed.1 "a b c d e".data ['a'] ['b'] (by decide),
   mle_ratio_observed.2 "a b c d e".data ['a'] ['b'] ['c'] (by decide)⟩

/-- The corpus size `N = sum(uniCountDict.values())` of `main`
(ngrams.py, line 172). -/
def uniN (text : List Char) : Nat := sumValues (mainUnigrams text)

/-- The value `count(w) / N` whose natural log `main` stores for a unigram
(ngrams.py, line 175), kept as an exact rational. -/
def uniRatio (text : List Char) (g : List (List Char)) : ℚ :=
  (get_count_dict (mainUnigrams text) g : ℚ) / (uniN text : ℚ)

/-- The stored unigram log-probability `np.log(value / N)`
(ngrams.py, line 175), over the reals. -/
noncomputable def uniProbDict (text : List Char) (g : List (List Char)) : ℝ :=
  Real.log ((get_count_dict (mainUnigrams text) g : ℝ) / (uniN text : ℝ))

theorem list_sum_div (l : List α) (f : α → ℚ) (c : ℚ) :
    (l.map (fun x => f x / c)).sum = (l.map f).sum / c := by
  induction l with
  | nil => simp
  | cons x rest ih => simp [ih, add_div]

/-- C2: on a non-empty corpus (`N > 0`), every stored unigram
log-probability is `ln(count(w) / N)`, and the pre-logarithm values
`count(w) / N` sum to exactly 1 over the vocabulary. -/
theorem unigram_logprob_and_mass (text : List Char) (h : 0 < uniN text) :
    (∀ g ∈ firstKeys (mainUnigrams text),
        uniProbDict text g
          = Real.log ((get_count_dict (mainUnigrams text) g : ℝ)
              / (uniN text : ℝ)))
    ∧ ((firstKeys (mainUnigrams text)).map (fun g => uniRatio text g)).sum
        = 1 := by
  refine ⟨fun g _ => rfl, ?_⟩
  unfold uniRatio
  rw [list_sum_div]
  have hmap : (firstKeys (mainUnigrams text)).map
      (fun g => ((get_count_dict (mainUnigrams text) g : ℚ)))
      = List.map (fun n : Nat => (n : ℚ))
          ((firstKeys (mainUnigrams text)).map
            (fun g => (mainUnigrams text).count g)) := by
    rw [List.map_map]
    rfl
  rw [hmap, ← Nat.cast_list_sum]
  have hN : (((firstKeys (mainUnigrams text)).map
      (fun g => (mainUnigrams text).count g)).sum : ℚ) = (uniN text : ℚ) := by
    norm_cast
  rw [hN]
  exact div_self (by exact_mod_cast Nat.pos_iff_ne_zero.mp h)

theorem unigram_logprob_and_mass_witness :
    (∀ g ∈ firstKeys (mainUnigrams "a b c a b".data),
        uniProbDict "a b c a b".data g
          = Real.log ((get_count_dict (mainUnigrams "a b c a b".data) g : ℝ)
              / (uniN "a b c a b".data : ℝ)))
    ∧ ((firstKeys (mainUnigrams "a b c a b".data)).map
        (fun g => uniRatio "a b c a b".data g)).sum = 1 :=
  unigram_logprob_and_mass "a b c a b".data (by decide)

/-- Error the unigram-probability loop of `main` could raise: `value / N`
raises a ZeroDivisionError when `N = 0` and the loop body runs
(ngrams.py, lines 172–175). -/
inductive PipelineErr where
  | divisionByZero
deriving DecidableEq

/-- The probability stage of `main` (ngrams.py, lines 156–186) once the
corpus file has been read into `text`: build the n-gram lists and the count
tables, then run the unigram loop.  The loop would raise a division-by-zero
error exactly when the unigram dict is non-empty while `N = 0`; otherwise the
stage completes, producing one probability entry per distinct unigram (the
later stages — MLE, backoff, serialization — are total).  The result carries
the unigram key list. -/
def pipelineRun (text : List Char) :
    Except PipelineErr (List (List (List Char))) :=
  if firstKeys (mainUnigrams text) ≠ [] ∧ uniN text = 0 then
    .error .divisionByZero
  else .ok (firstKeys (mainUnigrams text))

/-- C4 counterexample: on the empty corpus the pipeline does not fail with
an input error; it completes and produces an empty probability table (zero
entries). -/
theorem empty_corpus_counterexample :
    pipelineRun "".data = Except.ok []
    ∧ ∀ e, pipelineRun "".data ≠ Except.error e := by
  have hok : pipelineRun "".data = Except.ok [] := by rfl
  refine ⟨hok, ?_⟩
  intro e h
  rw [hok] at h
  exact Except.noConfusion h

/-- C4 (amended): the pipeline never raises, on any corpus: whenever the
unigram table is non-empty its value sum `N` is positive, so the
division-by-zero branch is unreachable; on an empty corpus it completes with
an empty table, and every entry that is present has a strictly positive
pre-logarithm ratio `count(w)/N`, so no `NaN` or `−∞` log-probability entry
is ever produced. -/
theorem pipeline_never_fails (text : List Char) :
    ∃ keys, pipelineRun text = Except.ok keys
      ∧ ∀ g ∈ keys, 0 < uniRatio text g := by
  have hcond : ¬(firstKeys (mainUnigrams text) ≠ [] ∧ uniN text = 0) := by
    rintro ⟨hne, hz⟩
    rw [uniN, sumValues_eq_length] at hz
    have hnil : mainUnigrams text = [] := List.length_eq_zero.mp hz
    rw [hnil] at hne
    exact hne rfl
  refine ⟨firstKeys (mainUnigrams text), ?_, ?_⟩
  · rw [pipelineRun, if_neg hcond]
  · intro g hg
    have hmem : g ∈ mainUnigrams text := mem_of_mem_firstKeys hg
    have hcount : 0 < (mainUnigrams text).count g := by
      rw [List.count_pos_iff]
      exact hmem
    have hN : 0 < uniN text := by
      rw [uniN, sumValues_eq_length]
      exact List.length_pos.mpr (List.ne_nil_of_mem hmem)
    unfold uniRatio get_count_dict
    apply div_pos
    · exact_mod_cast hcount
    · exact_mod_cast hN

/-- Error a raw division by an exactly-zero normalizer would raise in the
backoff computation. -/
inductive BackoffErr where
  | divisionByZero
deriving DecidableEq

/-- Modelled from the spec: `get_brants_bow_dict` is imported from
`backoff.py`, a file of this repository that is not among the sources.  §4.5
specifies, per context with at least one observed continuation, the weight
`(1 − Σ observed-continuation probabilities) / (1 − Σ lower-order
probabilities of those continuations)`, and requires a degenerate normalizer
(lower-order mass within `eps` of 1) to clamp the weight to zero instead of
dividing.  The error branch records what an unguarded division by an exactly
zero normalizer would raise; the guard must make it unreachable. -/
def get_brants_bow (eps : ℚ) (contProbs lowProbs : List ℚ) :
    Except BackoffErr ℚ :=
  if |1 - lowProbs.sum| < eps then .ok 0
  else if 1 - lowProbs.sum = 0 then .error .divisionByZero
  else .ok ((1 - contProbs.sum) / (1 - lowProbs.sum))

/-- C3: with any positive tolerance, a degenerate context — the sum of the
lower-order probabilities of the observed continuations within `eps` of 1 —
gets the weight clamped to exactly 0, and the calculator never reaches a
division-by-zero error on any input. -/
theorem brants_bow_clamps (eps : ℚ) (contProbs lowProbs : List ℚ)
    (heps : 0 < eps) :
    (|1 - lowProbs.sum| < eps →
        get_brants_bow eps contProbs lowProbs = .ok 0)
    ∧ ∀ e, get_brants_bow eps contProbs lowProbs ≠ .error e := by
  constructor
  · intro hdeg
    rw [get_brants_bow, if_pos hdeg]
  · intro e h
    rw [get_brants_bow] at h
    by_cases hdeg : |1 - lowProbs.sum| < eps
    · rw [if_pos hdeg] at h
      exact Except.noConfusion h
    · have hne : 1 - lowProbs.sum ≠ 0 := by
        intro h0
        rw [h0] at hdeg
        simp only [abs_zero] at hdeg
        exact hdeg heps
      rw [if_neg hdeg, if_neg hne] at h
      exact Except.noConfusion h

theorem brants_bow_clamps_witness :
    (|1 - ([1] : List ℚ).sum| < 1/10 →
        get_brants_bow (1/10) [1/2] [1] = .ok 0)
    ∧ ∀ e, get_brants_bow (1/10) [1/2] [1] ≠ .error e :=
  brants_bow_clamps (1/10) [1/2] [1] (by norm_num)

/-- One insertion step of a stable descending sort: walk past entries whose
key is strictly greater, and place the new entry in front of the first entry
whose key is less than or equal (so an entry inserted later never jumps
ahead of an equal-keyed entry already present). -/
def insertDesc [LinearOrder β] (k : α → β) (a : α) : List α → List α
  | [] => [a]
  | b :: l => if k b ≤ k a then a :: b :: l else b :: insertDesc k a l

/-- Stable sort by descending key, modelling Python
`sorted(items, key=operator.itemgetter(1), reverse=True)` (ngrams.py, lines
112, 124, 136): entries are ordered by descending value, and CPython's sort
is stable — `reverse=True` does not reverse ties — so entries with equal
values keep their original dict-insertion order.  Any stable descending sort
computes that same list; this one is an insertion sort. -/
def sortDesc [LinearOrder β] (k : α → β) : List α → List α
  | [] => []
  | a :: l => insertDesc k a (sortDesc k l)

theorem insertDesc_decomp [LinearOrder β] (k : α → β) (a : α) :
    ∀ l : List α, ∃ l1 l2, l = l1 ++ l2
      ∧ insertDesc k a l = l1 ++ a :: l2
      ∧ ∀ b ∈ l1, k a < k b := by
  intro l
  induction l with
  | nil => exact ⟨[], [], rfl, rfl, by simp⟩
  | cons b l ih =>
    by_cases hba : k b ≤ k a
    · exact ⟨[], b :: l, rfl, by rw [insertDesc, if_pos hba]; rfl, by simp⟩
    · obtain ⟨l1, l2, he, hi, hgt⟩ := ih
      refine ⟨b :: l1, l2, by rw [List.cons_append, ← he], ?_, ?_⟩
      · rw [insertDesc, if_neg hba, hi, List.cons_append]
      · intro c hc
        rcases List.mem_cons.mp hc with rfl | hc
        · exact lt_of_not_le hba
        · exact hgt c hc

theorem mem_insertDesc [LinearOrder β] (k : α → β) (a x : α) (l : List α)
    (hx : x ∈ insertDesc k a l) : x = a ∨ x ∈ l := by
  obtain ⟨l1, l2, he, hi, _⟩ := insertDesc_decomp k a l
  rw [hi] at hx
  rcases List.mem_append.mp hx with h1 | h2
  · exact Or.inr (he ▸ List.mem_append.mpr (Or.inl h1))
  · rcases List.mem_cons.mp h2 with rfl | h2
    · exact Or.inl rfl
    · exact Or.inr (he ▸ List.mem_append.mpr (Or.inr h2))

theorem sortDesc_perm [LinearOrder β] (k : α → β) :
    ∀ l : List α, List.Perm (sortDesc k l) l := by
  intro l
  induction l with
  | nil => exact List.Perm.refl []
  | cons a l ih =>
    rw [sortDesc]
    obtain ⟨l1, l2, he, hi, _⟩ := insertDesc_decomp k a (sortDesc k l)
    rw [hi]
    have h1 : List.Perm (l1 ++ a :: l2) (a :: (l1 ++ l2)) := List.perm_middle
    rw [← he] at h1
    exact h1.trans (List.Perm.cons a ih)

theorem pairwise_insertDesc [LinearOrder β] (k : α → β) (a : α) :
    ∀ l : List α, List.Pairwise (fun x y => k y ≤ k x) l →
      List.Pairwise (fun x y => k y ≤ k x) (insertDesc k a l) := by
  intro l
  induction l with
  | nil => intro _; simp [insertDesc]
  | cons b l ih =>
    intro hp
    rcases List.pairwise_cons.mp hp with ⟨hb, hl⟩
    by_cases hba : k b ≤ k a
    · rw [insertDesc, if_pos hba]
      refine List.pairwise_cons.mpr ⟨?_, hp⟩
      intro x hx
      rcases List.mem_cons.mp hx with rfl | hx
      · exact hba
      · exact le_trans (hb x hx) hba
    · rw [insertDesc, if_neg hba]
      refine List.pairwise_cons.mpr ⟨?_, ih hl⟩
      intro x hx
      rcases mem_insertDesc k a x l hx with rfl | hx
      · exact le_of_lt (lt_of_not_le hba)
      · exact hb x hx

/-- The sorted section is ordered by non-increasing key. -/
theorem sortDesc_sorted [LinearOrder β] (k : α → β) :
    ∀ l : List α, List.Pairwise (fun x y => k y ≤ k x) (sortDesc k l) := by
  intro l
  induction l with
  | nil => simp [sortDesc]
  | cons a l ih => exact pairwise_insertDesc k a _ ih

/-- Stability: restricted to the entries of any one key value, the sorted
list is exactly the original list. -/
theorem sortDesc_stable [LinearOrder β] (k : α → β) (v : β) :
    ∀ l : List α,
      (sortDesc k l).filter (fun x => k x = v)
        = l.filter (fun x => k x = v) := by
  intro l
  induction l with
  | nil => simp [sortDesc]
  | cons a l ih =>
    rw [sortDesc]
    obtain ⟨l1, l2, he, hi, hgt⟩ := insertDesc_decomp k a (sortDesc k l)
    rw [hi, List.filter_append, List.filter_cons]
    by_cases hv : k a = v
    · have hl1 : l1.filter (fun x => decide (k x = v)) = [] := by
        rw [List.filter_eq_nil_iff]
        intro b hb
        have : k a < k b := hgt b hb
        simp only [decide_eq_true_eq]
        intro hbv
        rw [hv] at this
        rw [hbv] at this
        exact lt_irrefl v this
      have hsplit : (sortDesc k l).filter (fun x => decide (k x = v))
          = l1.filter (fun x => decide (k x = v))
            ++ l2.filter (fun x => decide (k x = v)) := by
        rw [he, List.filter_append]
      rw [List.filter_cons]
      have hdt : (decide (k a = v)) = true := by simp [hv]
      rw [hdt]
      simp only [if_true]
      rw [hl1]
      simp only [List.nil_append]
      rw [← ih, hsplit, hl1, List.nil_append]
    · have hd : (decide (k a = v)) = false := by simpa using hv
      rw [hd]
      simp only [Bool.false_eq_true, if_false]
      rw [List.filter_cons]
      rw [hd]
      simp only [Bool.false_eq_true, if_false]
      rw [← ih, he, List.filter_append]

/-- One serialized unigram row (ngrams.py, lines 114–120):
`str(value[0]) + ' ' + key[0]`, plus `' ' + str(value[1])` when backoff
emission is on.  The key is a 1-tuple and `key[0]` is its only token;
numeric rendering abstracts Python's float repr by printing the exact
rational. -/
def uniEntryLine (backoff : Bool) (e : (List String) × (ℚ × ℚ)) : String :=
  if backoff then
    toString e.2.1 ++ " " ++ e.1.getD 0 "" ++ " " ++ toString e.2.2
  else toString e.2.1 ++ " " ++ e.1.getD 0 ""

/-- One serialized bigram row (ngrams.py, lines 126–132):
`str(value[0]) + ' ' + key[0] + ' ' + key[1]`, plus `' ' + str(value[1])`
when backoff emission is on. -/
def biEntryLine (backoff : Bool) (e : (List String) × (ℚ × ℚ)) : String :=
  if backoff then
    toString e.2.1 ++ " " ++ e.1.getD 0 "" ++ " " ++ e.1.getD 1 ""
      ++ " " ++ toString e.2.2
  else toString e.2.1 ++ " " ++ e.1.getD 0 "" ++ " " ++ e.1.getD 1 ""

/-- One serialized trigram row (ngrams.py, lines 138–140):
`str(value) + ' ' + key[0] + ' ' + key[1] + ' ' + key[2]` — never a backoff
column. -/
def triEntryLine (e : (List String) × ℚ) : String :=
  toString e.2 ++ " " ++ e.1.getD 0 "" ++ " " ++ e.1.getD 1 ""
    ++ " " ++ e.1.getD 2 ""

/-- The ARPA document written by `print_to_file` (ngrams.py, lines 100–141),
modelled at line granularity: each element is one line of the file, in
order.  The writes are `'\n\data\\\n'` (a blank line, then `\data\`), the
three `ngram k=<table size>` headers, then for each section a
`'\n\\k-grams:\n'` write (a blank line, then the section header) followed by
one line per sorted entry, and finally `'\n\end\\'` (a blank line, then the
end marker).  Sorting is by descending dict value — the `(log-prob, backoff)`
pair compared lexicographically for unigrams and bigrams, the bare log-prob
for trigrams. -/
def print_to_file_lines (uniBowDict biBowDict : List ((List String) × (ℚ × ℚ)))
    (triMLEdict : List ((List String) × ℚ)) (backoff : Bool) : List String :=
  ["", "\\data\\",
   "ngram 1=" ++ toString uniBowDict.length,
   "ngram 2=" ++ toString biBowDict.length,
   "ngram 3=" ++ toString triMLEdict.length,
   "", "\\1-grams:"]
  ++ (sortDesc (fun e => toLex e.2) uniBowDict).map (uniEntryLine backoff)
  ++ ["", "\\2-grams:"]
  ++ (sortDesc (fun e => toLex e.2) biBowDict).map (biEntryLine backoff)
  ++ ["", "\\3-grams:"]
  ++ (sortDesc (fun e => e.2) triMLEdict).map triEntryLine
  ++ ["", "\\end\\"]

/-- C8 counterexample: the document's first line is the empty line produced
by the leading `'\n'` of the `'\n\data\\\n'` write, not `\data\`. -/
theorem arpa_first_line_counterexample :
    (print_to_file_lines [] [] [] false).head? = some ""
    ∧ ¬ ((print_to_file_lines [] [] [] false).head? = some "\\data\\") := by
  constructor
  · rfl
  · intro h
    have : ("" : String) = "\\data\\" := by
      have h0 : (print_to_file_lines [] [] [] false).head? = some "" := rfl
      rw [h0] at h
      exact Option.some.inj h
    simp at this

/-- C8 (amended): the serialized document is a leading blank line, `\data\`,
the three `ngram k=` headers whose numbers equal exactly the number of rows
subsequently written in the corresponding section, then each section —
preceded by a blank line and its `\k-grams:` header — and finally a blank
line and the `\end\` marker; trigram rows never carry a backoff column. -/
theorem arpa_document_structure
    (u b : List ((List String) × (ℚ × ℚ)))
    (t : List ((List String) × ℚ)) (bo : Bool) :
    print_to_file_lines u b t bo
      = ["", "\\data\\",
         "ngram 1=" ++ toString
           ((sortDesc (fun e => toLex e.2) u).map (uniEntryLine bo)).length,
         "ngram 2=" ++ toString
           ((sortDesc (fun e => toLex e.2) b).map (biEntryLine bo)).length,
         "ngram 3=" ++ toString
           ((sortDesc (fun e => e.2) t).map triEntryLine).length,
         "", "\\1-grams:"]
        ++ (sortDesc (fun e => toLex e.2) u).map (uniEntryLine bo)
        ++ ["", "\\2-grams:"]
        ++ (sortDesc (fun e => toLex e.2) b).map (biEntryLine bo)
        ++ ["", "\\3-grams:"]
        ++ (sortDesc (fun e => e.2) t).map triEntryLine
        ++ ["", "\\end\\"]
    ∧ (∀ e : (List String) × ℚ,
        triEntryLine e
          = toString e.2 ++ " " ++ e.1.getD 0 "" ++ " "
              ++ e.1.getD 1 "" ++ " " ++ e.1.getD 2 "") := by
  constructor
  · have hu : ((sortDesc (fun e : (List String) × (ℚ × ℚ) => toLex e.2) u).map
        (uniEntryLine bo)).length = u.length := by
      rw [List.length_map]
      exact (sortDesc_perm _ u).length_eq
    have hb : ((sortDesc (fun e : (List String) × (ℚ × ℚ) => toLex e.2) b).map
        (biEntryLine bo)).length = b.length := by
      rw [List.length_map]
      exact (sortDesc_perm _ b).length_eq
    have ht : ((sortDesc (fun e : (List String) × ℚ => e.2) t).map
        triEntryLine).length = t.length := by
      rw [List.length_map]
      exact (sortDesc_perm _ t).length_eq
    rw [print_to_file_lines, hu, hb, ht]
  · intro e
    rfl

/-- C7 (amended): within each section the rows come out ordered by
non-increasing value; the output is a permutation of the table's entries;
and the sort is stable — among the rows of any one tied value, the table's
insertion order is kept (not a lexicographic n-gram order). -/
theorem section_sort_behavior {α β : Type} [LinearOrder β] (k : α → β)
    (tbl : List α) :
    List.Perm (sortDesc k tbl) tbl
    ∧ List.Pairwise (fun x y => k y ≤ k x) (sortDesc k tbl)
    ∧ ∀ v : β, (sortDesc k tbl).filter (fun x => k x = v)
        = tbl.filter (fun x => k x = v) :=
  ⟨sortDesc_perm k tbl, sortDesc_sorted k tbl,
   fun v => sortDesc_stable k v tbl⟩

/-- Lexicographic comparison of character lists (the order on Python
strings). -/
def charListLt : List Char → List Char → Bool
  | [], [] => false
  | [], _ :: _ => true
  | _ :: _, [] => false
  | c :: cs, d :: ds =>
    if c < d then true else if c = d then charListLt cs ds else false

/-- Lexicographic comparison of n-gram keys, used to state what C7 claims
about tie-breaking. -/
def ngramLe : List String → List String → Bool
  | [], _ => true
  | _ :: _, [] => false
  | x :: xs, y :: ys =>
    if charListLt x.data y.data then true
    else if x = y then ngramLe xs ys else false

/-- C7 counterexample: two trigram rows with the same probability placed in
the table in anti-lexicographic order stay in that order after sorting —
ties keep dict insertion order, they are not re-ordered lexicographically. -/
theorem tie_order_counterexample :
    ¬ ((sortDesc (fun e : (List String) × ℚ => e.2)
          [(["b", "x", "y"], (1 : ℚ)), (["a", "x", "y"], 1)]).Pairwise
        (fun x y => x.2 = y.2 → ngramLe x.1 y.1 = true)) := by
  have hs : sortDesc (fun e : (List String) × ℚ => e.2)
      [(["b", "x", "y"], (1 : ℚ)), (["a", "x", "y"], 1)]
      = [(["b", "x", "y"], (1 : ℚ)), (["a", "x", "y"], 1)] := by decide
  intro h
  rw [hs] at h
  have h2 := (List.pairwise_cons.mp h).1 (["a", "x", "y"], (1 : ℚ))
    (List.mem_cons_self _ _) rfl
  exact absurd h2 (by decide)

/-- Kazakh consonant class (kaz_syllable_split.py, line 14). -/
def isConsonant (c : Char) : Bool :=
  c = 'п' || c = 'б' || c = 'д' || c = 'т' || c = 'к' || c = 'г' || c = 'х' ||
  c = 'ш' || c = 'щ' || c = 'ж' || c = 'з' || c = 'с' || c = 'ц' || c = 'ч' ||
  c = 'й' || c = 'л' || c = 'м' || c = 'н' || c = 'ң' || c = 'ф' || c = 'в' ||
  c = 'р' || c = 'ъ' || c = 'ь'

/-- Kazakh vowel class (kaz_syllable_split.py, line 15). -/
def isVowel (c : Char) : Bool :=
  c = 'и' || c = 'е' || c = 'э' || c = 'ө' || c = 'ү' || c = 'а' || c = 'о' ||
  c = 'у' || c = 'ы'

/-- Kazakh glide class (kaz_syllable_split.py, line 16). -/
def isGlide (c : Char) : Bool := c = 'ё' || c = 'я' || c = 'ю' || c = 'е'

/-- The `(vowel|glide)` alternative that opens all four patterns. -/
def isVG (c : Char) : Bool := isVowel c || isGlide c

/-- The regex `(vowel|glide)(consonant)(vowel)` matched against the
three-character window `word[i:i+3]` (kaz_syllable_split.py, line 21). -/
def vcvHits : List Char → Bool
  | [x, y, z] => isVG x && isConsonant y && isVowel z
  | _ => false

/-- The regex `(vowel|glide)(consonant)(consonant)(vowel)` matched against
the four-character window `word[i:i+4]` (line 23). -/
def vccvHits : List Char → Bool
  | [x, y, z, w] => isVG x && isConsonant y && isConsonant z && isVowel w
  | _ => false

/-- The regex `(vowel|glide)(consonant)(consonant)(consonant)` matched
against the four-character window `word[i:i+4]` (line 25). -/
def vcccHits : List Char → Bool
  | [x, y, z, w] => isVG x && isConsonant y && isConsonant z && isConsonant w
  | _ => false

/-- The regex `(vowel|glide)(glide)` matched against the two-character
window `word[i:i+2]` (line 27). -/
def vgvHits : List Char → Bool
  | [x, y] => isVG x && isGlide y
  | _ => false

/-- One rule pass of the splitter: the window width `j − i`, the offset from
`i` at which the boundary marker is inserted on a match, and the matcher run
against the window. -/
structure SplitRule where
  width : Nat
  insAt : Nat
  hits : List Char → Bool

def vcvRule : SplitRule := ⟨3, 1, vcvHits⟩

def vccvRule : SplitRule := ⟨4, 2, vccvHits⟩

def vcccRule : SplitRule := ⟨4, 3, vcccHits⟩

def vgvRule : SplitRule := ⟨2, 1, vgvHits⟩

/-- The inserted boundary marker `"@ @"`. -/
def atMark : List Char := ['@', ' ', '@']

/-- One while-loop of the splitter (kaz_syllable_split.py, lines 35–84),
fuel-bounded.  State: the progressively-lengthened word and the window start
`i`; the loop condition `j < lenWord` with `j = i + width` and
`lenWord = len(word) + 1` is `i + width ≤ word.length`.  On a match the word
gains `"@ @"` at offset `insAt` from `i` and the scan jumps three positions
(both `i` and `j` advance by 3, and `lenWord` grows by 3); otherwise it
advances one position.  `none` means the fuel ran out before the loop
finished. -/
def runPass (r : SplitRule) : Nat → List Char → Nat → Option (List Char)
  | 0, _, _ => none
  | fuel + 1, w, i =>
    if i + r.width ≤ w.length then
      if r.hits ((w.drop i).take r.width) then
        runPass r fuel
          (w.take (i + r.insAt) ++ atMark ++ w.drop (i + r.insAt)) (i + 3)
      else runPass r fuel w (i + 1)
    else some w

/-- The per-word body of the splitter: the four passes applied in the fixed
order VCV, VCCV, VCCC, VGV, each scanning from `i = 0`. -/
def applyRules (fuel : Nat) (w : List Char) : Option (List Char) :=
  match runPass vcvRule fuel w 0 with
  | none => none
  | some w1 =>
    match runPass vccvRule fuel w1 0 with
    | none => none
    | some w2 =>
      match runPass vcccRule fuel w2 0 with
      | none => none
      | some w3 => runPass vgvRule fuel w3 0

def mapOpt (f : α → Option β) : List α → Option (List β)
  | [] => some []
  | a :: l =>
    match f a, mapOpt f l with
    | some b, some bs => some (b :: bs)
    | _, _ => none

/-- The main loop of `kaz_syllable_split.py` (lines 30–86): for each input
line, for each whitespace-token of the line, run the four passes and print
the result — one output line per word, in order. -/
def kazMain (fuel : Nat) : List (List Char) → Option (List (List Char))
  | [] => some []
  | line :: rest =>
    match mapOpt (applyRules fuel) (wsWords line), kazMain fuel rest with
    | some outs, some more => some (outs ++ more)
    | _, _ => none

/-- The whole program on the contents of `clean.txt`. -/
def kazRun (fuel : Nat) (text : List Char) : Option (List (List Char)) :=
  kazMain fuel (splitOnChar '\n' text)

theorem mapOpt_append (f : α → Option β) :
    ∀ l1 l2 : List α,
      mapOpt f (l1 ++ l2)
        = (mapOpt f l1).bind (fun a => (mapOpt f l2).map (fun b => a ++ b)) := by
  intro l1 l2
  induction l1 with
  | nil =>
    simp only [List.nil_append, mapOpt]
    cases mapOpt f l2 <;> simp
  | cons a l1 ih =>
    rw [List.cons_append]
    simp only [mapOpt]
    rw [ih]
    cases f a <;> cases mapOpt f l1 <;> cases mapOpt f l2 <;> simp

theorem mapOpt_length (f : α → Option β) :
    ∀ (l : List α) (out : List β),
      mapOpt f l = some out → out.length = l.length := by
  intro l
  induction l with
  | nil =>
    intro out h
    rw [mapOpt] at h
    cases h
    rfl
  | cons a l ih =>
    intro out h
    rw [mapOpt] at h
    cases hfa : f a with
    | none => rw [hfa] at h; exact absurd h (by simp)
    | some b =>
      cases hml : mapOpt f l with
      | none => rw [hfa, hml] at h; exact absurd h (by simp)
      | some bs =>
        rw [hfa, hml] at h
        cases h
        simp [ih bs hml]

theorem kazMain_eq_mapOpt (fuel : Nat) :
    ∀ ls : List (List Char),
      kazMain fuel ls = mapOpt (applyRules fuel) (ls.flatMap wsWords) := by
  intro ls
  induction ls with
  | nil => rfl
  | cons line rest ih =>
    rw [List.flatMap_cons, mapOpt_append, kazMain, ih]
    cases mapOpt (applyRules fuel) (wsWords line) <;>
      cases mapOpt (applyRules fuel) (rest.flatMap wsWords) <;> simp

/-- C9: an execution of the splitter that runs to completion processes, in
order, the whitespace words of every input line, producing for each word
exactly the result of the four rule passes applied in the fixed order VCV,
VCCV, VCCC, VGV (the definition of `applyRules`, each pass scanning the
progressively-lengthened word left to right via `runPass`), and it prints
exactly one output line per input word. -/
theorem splitter_structure (fuel : Nat) (text : List Char)
    (out : List (List Char)) (h : kazRun fuel text = some out) :
    mapOpt (applyRules fuel) ((splitOnChar '\n' text).flatMap wsWords)
        = some out
    ∧ out.length = ((splitOnChar '\n' text).flatMap wsWords).length := by
  rw [kazRun, kazMain_eq_mapOpt] at h
  exact ⟨h, mapOpt_length _ _ out h⟩

theorem splitter_structure_witness :
    mapOpt (applyRules 50)
        ((splitOnChar '\n' "бала жақсы\n".data).flatMap wsWords)
      = some ["ба@ @ла".data, "жақсы".data]
    ∧ (["ба@ @ла".data, "жақсы".data] : List (List Char)).length
        = ((splitOnChar '\n' "бала жақсы\n".data).flatMap wsWords).length :=
  splitter_structure 50 "бала жақсы\n".data
    ["ба@ @ла".data, "жақсы".data] (by decide)

/-- If every window of a rule fails on `w`, its pass walks to the end of the
word one position at a time and returns the word unchanged, provided the
fuel covers the scan. -/
theorem runPass_stuck (r : SplitRule) (w : List Char)
    (hw : ∀ i, i + r.width ≤ w.length →
        r.hits ((w.drop i).take r.width) = false) :
    ∀ (fuel i : Nat), i ≤ w.length + 1 → w.length + 2 ≤ fuel + i →
      runPass r fuel w i = some w := by
  intro fuel
  induction fuel with
  | zero =>
    intro i hi hf
    exact absurd hf (by omega)
  | succ f ih =>
    intro i hi hf
    rw [runPass]
    by_cases hcond : i + r.width ≤ w.length
    · rw [if_pos hcond, hw i hcond]
      simp only [Bool.false_eq_true, if_false]
      have hw1 : 1 ≤ r.width ∨ r.width = 0 := by omega
      exact ih (i + 1) (by omega) (by omega)
    · rw [if_neg hcond]

/-- A window extracted inside the scan range starts with a character of the
word. -/
theorem window_head (w : List Char) (i n : Nat) (hi : i + n ≤ w.length)
    (hn : 1 ≤ n) :
    ∃ x s', (w.drop i).take n = x :: s' ∧ x ∈ w ∧ s'.length = n - 1 := by
  have hlen : ((w.drop i).take n).length = n := by
    rw [List.length_take, List.length_drop]
    omega
  cases hs : (w.drop i).take n with
  | nil =>
    rw [hs] at hlen
    simp at hlen
    omega
  | cons x s' =>
    have hxw : x ∈ w := by
      have hx1 : x ∈ (w.drop i).take n := by
        rw [hs]
        exact List.mem_cons_self x s'
      exact List.drop_subset i w (List.take_subset _ _ hx1)
    refine ⟨x, s', rfl, hxw, ?_⟩
    rw [hs] at hlen
    simp at hlen
    omega

/-- C10: on a word containing no character of the vowel set and none of the
glide set, every window of each of the four rules fails (each pattern opens
with `(vowel|glide)`), so all four passes leave the word unchanged and the
printed output word equals the input word, given fuel covering the four
scans. -/
theorem splitter_id_on_vowel_free (w : List Char) (fuel : Nat)
    (hfree : ∀ c ∈ w, isVowel c = false ∧ isGlide c = false)
    (hfuel : w.length + 2 ≤ fuel) :
    applyRules fuel w = some w := by
  have hvg : ∀ c ∈ w, isVG c = false := by
    intro c hc
    obtain ⟨h1, h2⟩ := hfree c hc
    simp [isVG, h1, h2]
  have hvcv : ∀ i, i + vcvRule.width ≤ w.length →
      vcvRule.hits ((w.drop i).take vcvRule.width) = false := by
    intro i hi
    obtain ⟨x, s', hs, hx, hsl⟩ := window_head w i 3 hi (by omega)
    obtain ⟨y, z, hyz⟩ := List.length_eq_two.mp (by simpa using hsl)
    show vcvRule.hits (List.take 3 (List.drop i w)) = false
    rw [hs, hyz]
    simp [vcvRule, vcvHits, hvg x hx]
  have hvccv : ∀ i, i + vccvRule.width ≤ w.length →
      vccvRule.hits ((w.drop i).take vccvRule.width) = false := by
    intro i hi
    obtain ⟨x, s', hs, hx, hsl⟩ := window_head w i 4 hi (by omega)
    obtain ⟨y, z, u, hyz⟩ := List.length_eq_three.mp (by simpa using hsl)
    show vccvRule.hits (List.take 4 (List.drop i w)) = false
    rw [hs, hyz]
    simp [vccvRule, vccvHits, hvg x hx]
  have hvccc : ∀ i, i + vcccRule.width ≤ w.length →
      vcccRule.hits ((w.drop i).take vcccRule.width) = false := by
    intro i hi
    obtain ⟨x, s', hs, hx, hsl⟩ := window_head w i 4 hi (by omega)
    obtain ⟨y, z, u, hyz⟩ := List.length_eq_three.mp (by simpa using hsl)
    show vcccRule.hits (List.take 4 (List.drop i w)) = false
    rw [hs, hyz]
    simp [vcccRule, vcccHits, hvg x hx]
  have hvgv : ∀ i, i + vgvRule.width ≤ w.length →
      vgvRule.hits ((w.drop i).take vgvRule.width) = false := by
    intro i hi
    obtain ⟨x, s', hs, hx, hsl⟩ := window_head w i 2 hi (by omega)
    obtain ⟨y, hy⟩ := List.length_eq_one.mp (by simpa using hsl)
    show vgvRule.hits (List.take 2 (List.drop i w)) = false
    rw [hs, hy]
    simp [vgvRule, vgvHits, hvg x hx]
  have h1 := runPass_stuck vcvRule w hvcv fuel 0 (by omega) (by omega)
  have h2 := runPass_stuck vccvRule w hvccv fuel 0 (by omega) (by omega)
  have h3 := runPass_stuck vcccRule w hvccc fuel 0 (by omega) (by omega)
  have h4 := runPass_stuck vgvRule w hvgv fuel 0 (by omega) (by omega)
  unfold applyRules
  simp only [h1, h2, h3, h4]

theorem splitter_id_on_vowel_free_witness :
    applyRules 5 "мкр".data = some "мкр".data :=
  splitter_id_on_vowel_free "мкр".data 5 (by decide) (by decide)
